import Mathlib

/-!
# docscore: a shallow embedding of `main.go` and `scorer_hits.go`

The program scans a documentation tree, extracts `title:`, `owner:` and `test:` fields,
scores every page by its page hits and writes a spreadsheet.  This development embeds
the pure part of the pipeline and proves properties of it.

Conventions of the embedding.

* A Go `string` is the list of its bytes (`Str`), each byte written as the character of
  that code, so that an ASCII literal is its list of characters, the length of a string is
  its length in bytes and `s[n:]` is `s.drop n`.  The classes of the regular expression and
  the digits of `Atoi` are ASCII, so they are decided byte by byte.
* A Go `int` is an `Int`; the program runs on a 64-bit target, and every addition the
  program performs is followed by `wrapInt`, the two's-complement reduction to 64 bits.
* A Go `map[string]int` is an association list read with `GoMap.get?` and written with
  `GoMap.set`; indexing an absent key yields the zero value, as in Go.
* A Go `[]string` is a slice header (`StrSlice`) into a memory of backing arrays
  (`Memory`); `append` writes in place when the slice has spare capacity and allocates a
  new array otherwise.  The capacity the runtime gives a new array is not fixed by the
  language: it is the parameter `grow` (the number of spare cells for a needed length).
* File-system access, CSV decoding and CSV encoding are outside the embedding: the
  functions below take the calls `filepath.Walk` makes, with the outcome of reading each
  path, and the decoded records as arguments.
-/

namespace Docscore

/-- Go `string`. -/
abbrev Str := List Char

/-! ## The Go library functions the program calls -/

/-- Reduction of an integer to the 64-bit two's-complement range of Go's `int`. -/
def wrapInt (x : Int) : Int := (x + 2 ^ 63) % 2 ^ 64 - 2 ^ 63

/-- `strings.HasPrefix`. -/
def HasPrefix (s pre : Str) : Bool := pre.isPrefixOf s

/-- `strings.HasSuffix`. -/
def HasSuffix (s suf : Str) : Bool := suf.isSuffixOf s

/-- `strings.TrimPrefix`: `s` without the leading `pre`, or `s` itself. -/
def TrimPrefix (s pre : Str) : Str :=
  if HasPrefix s pre then s.drop pre.length else s

/-- `strings.TrimSuffix`: `s` without the trailing `suf`, or `s` itself. -/
def TrimSuffix (s suf : Str) : Str :=
  if HasSuffix s suf then s.take (s.length - suf.length) else s

/-- `strings.Join`. -/
def Join : List Str → Str → Str
  | [], _ => []
  | [a], _ => a
  | a :: b :: rest, sep => a ++ sep ++ Join (b :: rest) sep

/-- `strings.ReplaceAll(s, old, "")` for a one-character `old`, the only form the program uses:
every occurrence of the character is removed. -/
def ReplaceAll (s : Str) (old : Char) : Str := s.filter (fun c => c != old)

/-- The verb `%d` of `fmt.Sprintf`: decimal digits, with a minus sign when negative. -/
def formatInt : Int → Str
  | Int.ofNat k => Nat.toDigits 10 k
  | Int.negSucc k => '-' :: Nat.toDigits 10 (k + 1)

/-- The digit loop of `strconv.ParseUint(s, 10, 0)`, started with `n` read so far.  The
result `none` is the syntax error (a byte that is not a decimal digit); on overflow of
64 bits the loop stops at once with the largest value, which Go returns next to its range
error (the bytes after the overflow are not looked at). -/
def parseUintLoop : List Char → Nat → Option Nat
  | [], n => some n
  | c :: cs, n =>
    if c.isDigit then
      if n ≥ (2 ^ 64 - 1) / 10 + 1 then some (2 ^ 64 - 1)
      else if n * 10 + (c.toNat - 48) > 2 ^ 64 - 1 then some (2 ^ 64 - 1)
      else parseUintLoop cs (n * 10 + (c.toNat - 48))
    else none

/-- `strconv.Atoi` with the error result dropped (`recordCount, _ := strconv.Atoi(..)`).
An optional sign followed by at least one decimal digit gives the number, and the nearest
bound of `int` when the number does not fit (the value Go returns next to its range error);
a syntax error gives 0.  The fast path of `Atoi` for short strings computes the same value. -/
def Atoi (s : Str) : Int :=
  match s with
  | [] => 0
  | c :: cs =>
    let neg : Bool := c == '-'
    let ds : Str := if c == '+' || c == '-' then cs else c :: cs
    if ds.isEmpty then 0
    else
      match parseUintLoop ds 0 with
      | none => 0
      | some un =>
        if !neg && un ≥ 2 ^ 63 then 2 ^ 63 - 1
        else if neg && un > 2 ^ 63 then -(2 ^ 63)
        else if neg then -(un : Int) else (un : Int)

/-- The pieces of a string between the occurrences of a separator character (empty
pieces included). -/
def splitChar (sep : Char) : Str → List Str
  | [] => [[]]
  | c :: cs =>
    match splitChar sep cs with
    | [] => [[c]]
    | el :: els => if c == sep then [] :: el :: els else (c :: el) :: els

/-- The elements of a slash-separated path. -/
def splitSlash (path : Str) : List Str := splitChar '/' path

/-- The lines of a text. -/
def textLines (text : Str) : List Str := splitChar '\n' text

/-- One iteration of the loop of `filepath.Clean`, per path element.  The state is the list
of elements written so far and the number of leading `..` elements that must stay. -/
def cleanStep (rooted : Bool) (st : List Str × Nat) (el : Str) : List Str × Nat :=
  if el == [] || el == ['.'] then st
  else if el == ['.', '.'] then
    if st.1.length > st.2 then (st.1.dropLast, st.2)
    else if !rooted then (st.1 ++ [['.', '.']], st.1.length + 1)
    else st
  else (st.1 ++ [el], st.2)

/-- `filepath.Clean` with `/` as separator and no volume name. -/
def Clean (path : Str) : Str :=
  if path.isEmpty then ['.']
  else
    let rooted : Bool := path.head? == some '/'
    let out := Join ((splitSlash path).foldl (cleanStep rooted) ([], 0)).1 ['/']
    if rooted then '/' :: out
    else if out.isEmpty then ['.'] else out

/-- `filepath.Dir`: everything up to and including the last separator, cleaned. -/
def Dir (path : Str) : Str :=
  Clean (path.reverse.dropWhile (fun c => c != '/')).reverse

/-- The backwards scan of `filepath.Ext` over the reversed path. -/
def extScan : List Char → Str → Str
  | [], _ => []
  | c :: r, acc =>
    if c == '/' then [] else if c == '.' then '.' :: acc else extScan r (c :: acc)

/-- `filepath.Ext`: the suffix beginning at the last dot of the last path element. -/
def Ext (path : Str) : Str := extScan path.reverse []

/-! ## Maps -/

/-- Go `map[string]int`. -/
abbrev GoMap := List (Str × Int)

/-- The two-result lookup `v, ok := m[k]`. -/
def GoMap.get? : GoMap → Str → Option Int
  | [], _ => none
  | (k', v) :: rest, k => if k' = k then some v else GoMap.get? rest k

/-- The one-result lookup `m[k]`: the zero value for an absent key. -/
def GoMap.index (m : GoMap) (k : Str) : Int := (m.get? k).getD 0

/-- The assignment `m[k] = v`. -/
def GoMap.set : GoMap → Str → Int → GoMap
  | [], k, v => [(k, v)]
  | (k', v') :: rest, k, v =>
    if k' = k then (k, v) :: rest else (k', v') :: GoMap.set rest k v

/-! ## Slices of strings -/

/-- Go `[]string`: the window `array[offset : offset+len]` on a backing array, extensible
up to `offset+cap`; `array` is the index of the backing array in memory. -/
structure StrSlice where
  array : Nat
  offset : Nat
  len : Nat
  cap : Nat
  deriving DecidableEq

/-- The backing arrays of the `[]string` values, by index. -/
abbrev Memory := List (List Str)

/-- The elements a slice shows. -/
def Memory.read (mem : Memory) (s : StrSlice) : List Str :=
  ((mem.getD s.array []).drop s.offset).take s.len

/-- Whether a header is one a Go program can hold: `len ≤ cap`, and the capacity lies
within the backing array (the `nil` slice has `cap = 0`). -/
def Memory.valid (mem : Memory) (s : StrSlice) : Bool :=
  decide (s.len ≤ s.cap) && decide (s.offset + s.cap ≤ (mem.getD s.array []).length)

/-- The built-in `append(s, v)`.  With spare capacity the cell after the window is
overwritten in the backing array itself, which every slice on that array sees; without,
the elements are copied to a new array of `grow (len+1)` further cells. -/
def Memory.append (grow : Nat → Nat) (mem : Memory) (s : StrSlice) (v : Str) :
    Memory × StrSlice :=
  if s.len < s.cap then
    (mem.set s.array ((mem.getD s.array []).set (s.offset + s.len) v),
     { s with len := s.len + 1 })
  else
    (mem ++ [mem.read s ++ v :: List.replicate (grow (s.len + 1)) []],
     { array := mem.length, offset := 0, len := s.len + 1,
       cap := s.len + 1 + grow (s.len + 1) })

/-! ## main.go -/

/-- `var maxScore = 15`. -/
def maxScore : Int := 15

/-- `type testStatus string`. -/
abbrev testStatus := Str

def testNotApplicable : testStatus := "n/a".toList
def testNo : testStatus := "no".toList
def testYes : testStatus := "yes".toList
def testUnknown : testStatus := "unknown".toList

/-- `var excludeDirs`. -/
def excludeDirs : List Str :=
  [ "en/about".toList,
    "zh/about".toList,
    "en/blog".toList,
    "zh/blog".toList,
    "en/boilerplates".toList,
    "zh/boilerplates".toList,
    "en/events".toList,
    "zh/events".toList,
    "en/docs/reference/glossary".toList,
    "zh/docs/reference/glossary".toList,
    "zh/news".toList,
    "en/news".toList,
    "en/test".toList,
    "zh/test".toList ]

/-- `type fileEntry struct`, over the representation `ν` of the field `notes []string`. -/
structure fileEntryOf (ν : Type) where
  fullPath : Str
  relative : Str
  url : Str
  tested : testStatus
  score : Int
  title : Str
  owner : Str
  notes : ν
  deriving DecidableEq

/-- A `fileEntry` given with the elements of its `notes`. -/
abbrev fileEntry := fileEntryOf (List Str)

/-- A `fileEntry` as the program holds it: `notes` is a slice header. -/
abbrev fileEntryMem := fileEntryOf StrSlice

/-- The entry a stored `fileEntry` shows: its `notes` read in memory. -/
def Memory.entry (mem : Memory) (e : fileEntryMem) : fileEntry :=
  { fullPath := e.fullPath
    relative := e.relative
    url := e.url
    tested := e.tested
    score := e.score
    title := e.title
    owner := e.owner
    notes := mem.read e.notes }

/-- `getPriority`: an expression-less `switch` takes the first case that holds, and
`priority` keeps its initial 0 when none does. -/
def getPriority (file : fileEntry) : Str :=
  let score := file.score
  let priority : Int :=
    if score > (maxScore * 2).tdiv 3 then 0
    else if score > (maxScore * 1).tdiv 3 then 1
    else if score > 0 then 2
    else if score = 0 then 3
    else 0
  'P' :: formatInt priority

/-- `getURL`. -/
def getURL (path : Str) : Str :=
  "https://preliminary.istio.io/latest/".toList ++ Dir (TrimPrefix path "en/".toList)

/-- `skipFile`: the loop over `excludeDirs` returns true at the first entry that is a prefix. -/
def skipFile (path : Str) : Bool :=
  excludeDirs.any (fun value => HasPrefix path value)

/-- Class `\s` of Go regular expressions: tab, newline, form feed, carriage return, space. -/
def reSpace (c : Char) : Bool :=
  c == '\t' || c == '\n' || c == '\x0c' || c == '\r' || c == ' '

/-- Class `[\w|\/]`: an ASCII letter, digit or underscore, or `|`, or `/`. -/
def reWordBarSlash (c : Char) : Bool :=
  c.isAlphanum || c == '_' || c == '|' || c == '/'

/-- The `.` of Go regular expressions: any character but newline. -/
def reDot (c : Char) : Bool := c != '\n'

/-- A match of `lit\s*[\w|\/]*.*` anchored at the start of `s`.  Once `lit` is read each
starred class takes its longest run, since what follows can always match the empty string. -/
def matchHere (lit s : Str) : Option Str :=
  if lit.isPrefixOf s then
    let r0 := s.drop lit.length
    let r1 := r0.dropWhile reSpace
    let r2 := r1.dropWhile reWordBarSlash
    some (lit ++ r0.takeWhile reSpace ++ r1.takeWhile reWordBarSlash ++ r2.takeWhile reDot)
  else none

/-- `Regexp.FindString` for the pattern `lit\s*[\w|\/]*.*`: the leftmost match, or the
empty string. -/
def FindString (lit : Str) : Str → Str
  | [] => (matchHere lit []).getD []
  | c :: cs =>
    match matchHere lit (c :: cs) with
    | some m => m
    | none => FindString lit cs

/-- `getAndTrimField`, for a field name without regular-expression metacharacters (the
program passes `title`, `owner` and `test`). -/
def getAndTrimField (field body : Str) : Str :=
  let fieldValue := TrimPrefix (FindString (field ++ [':']) body) (field ++ [':'])
  TrimPrefix fieldValue [' ']

/-- `isTested`. -/
def isTested (content : Str) : testStatus :=
  let teststatus := getAndTrimField "test".toList content
  if teststatus.isEmpty then testUnknown else teststatus

/-- The struct literal the walk callback of `getAllFiles` appends for a file it has read.
The composite literal of `notes` is a new one-element array, given here by its element. -/
def newFileEntry (path relativePath fileContent : Str) : fileEntry :=
  { fullPath := path
    relative := relativePath
    url := getURL relativePath
    tested := isTested fileContent
    score := 0
    title := getAndTrimField "title".toList fileContent
    owner := getAndTrimField "owner".toList fileContent
    notes := ["Relative path:".toList ++ relativePath] }

/-- The `relativePath` of the walk callback, `strings.TrimPrefix(path[len(rootPath):], "/")`,
for a path that is not shorter than the root. -/
def relativePath (rootPath path : Str) : Str :=
  TrimPrefix (path.drop rootPath.length) ['/']

/-- The walk of `getAllFiles`.  The list holds the calls `filepath.Walk` makes to the
callback, in order: the path of each (the root, directories and files alike) and what
`ioutil.ReadFile` gives for it (`none` when it fails, as on a directory).  The result
`none` is the run-time panic of `path[len(rootPath):]` on a path shorter than the root;
otherwise it is the pair the function returns: the entries, and the error with which the
callback stopped the walk, if any. -/
def getAllFilesWalk (rootPath : Str) :
    List (Str × Option Str) → List fileEntry → Option (List fileEntry × Option Str)
  | [], files => some (files, none)
  | (path, content) :: rest, files =>
    if path.length < rootPath.length then none
    else
      if Ext path == ".md".toList && !skipFile (relativePath rootPath path) then
        match content with
        | none => some (files, some ("Unable to open file ".toList ++ path ++ ['\n']))
        | some fileContent =>
          getAllFilesWalk rootPath rest
            (files ++ [newFileEntry path (relativePath rootPath path) fileContent])
      else getAllFilesWalk rootPath rest files

/-- `getAllFiles`, given the calls `filepath.Walk` makes for the tree under `path`. -/
def getAllFiles (path : Str) (walk : List (Str × Option Str)) :
    Option (List fileEntry × Option Str) :=
  getAllFilesWalk path walk []

/-- The layout in memory of entries given with their notes: each `notes` is an array of
its own, filled to its capacity, as the composite literal of `getAllFiles` makes it. -/
def Memory.store : Memory → List fileEntry → Memory × List fileEntryMem
  | mem, [] => (mem, [])
  | mem, e :: rest =>
    let r := Memory.store (mem ++ [e.notes]) rest
    (r.1,
     { fullPath := e.fullPath
       relative := e.relative
       url := e.url
       tested := e.tested
       score := e.score
       title := e.title
       owner := e.owner
       notes := { array := mem.length, offset := 0, len := e.notes.length,
                  cap := e.notes.length } } :: r.2)

/-- The record `writeTestSpreadsheet` writes for one entry. -/
def reportRow (value : fileEntry) : List Str :=
  [ [],
    value.owner,
    "=HYPERLINK(\"".toList ++ value.url ++ "\",\"".toList ++ ReplaceAll value.title '\"'
      ++ "\")".toList,
    getPriority value,
    value.tested,
    [], [], [], [], [], [], [], [], [],
    Join value.notes ['\n'] ]

/-- The data records of `writeTestSpreadsheet`, one per entry, in input order. -/
def writeTestSpreadsheet (files : List fileEntry) : List (List Str) :=
  files.map reportRow

/-! ## scorer_hits.go -/

/-- `type Hits struct`. -/
structure Hits where
  MaxScore : Int
  csv : GoMap

/-- `Hits.scoreFile`: the score as a portion of the package-level `maxScore` and the
page hits. -/
def Hits.scoreFile (hits : Hits) (url : Str) : Int × Int :=
  let url := TrimPrefix url "en/".toList
  let url := url ++ ['/']
  let score := hits.csv.index url
  if score > 2000 then (maxScore, score)
  else if score > 400 then ((maxScore * 2).tdiv 3, score)
  else if score > 10 then ((maxScore * 1).tdiv 3, score)
  else (0, score)

/-- The loop body of `Hits.Score` for one entry: the new memory and the entry written
back to `fileEntries[index]`. -/
def Hits.scoreEntry (hits : Hits) (grow : Nat → Nat) (mem : Memory) (entry : fileEntryMem) :
    Memory × fileEntryMem :=
  let r := hits.scoreFile (Dir entry.relative)
  let a := mem.append grow entry.notes ("Hits: ".toList ++ formatInt r.2 ++ ['\n'])
  (a.1, { entry with score := wrapInt (entry.score + r.1), notes := a.2 })

/-- `Hits.Score`: the entries are treated in order, each in the memory the earlier ones
left; the result is the final memory and the returned entries. -/
def Hits.Score (hits : Hits) (grow : Nat → Nat) :
    Memory → List fileEntryMem → Memory × List fileEntryMem
  | mem, [] => (mem, [])
  | mem, entry :: rest =>
    let s := hits.scoreEntry grow mem entry
    let r := Hits.Score hits grow s.1 rest
    (r.1, s.2 :: r.2)

/-- The normalisation `parseCSV` applies to column 0. -/
def recordName (col0 : Str) : Str :=
  TrimPrefix (TrimSuffix col0 "index.html".toList) "/latest/".toList

/-- The loop of `parseCSV` over the decoded records; `none` is the run-time panic of an
index out of range. -/
def parseCSVLoop : List (List Str) → GoMap → Option GoMap
  | [], recordsMap => some recordsMap
  | record :: rest, recordsMap =>
    match record[2]?, record[0]? with
    | some col2, some col0 =>
      let recordCount := Atoi col2
      let name := recordName col0
      parseCSVLoop rest (recordsMap.set name (wrapInt (recordsMap.index name + recordCount)))
    | _, _ => none

/-- `parseCSV` on the records the CSV reader returned. -/
def parseCSV (records : List (List Str)) : Option GoMap :=
  parseCSVLoop records []

/-- `getHitsScorer`, given the records the CSV reader returned for the analytics file;
`none` is the panic of `parseCSV`. -/
def getHitsScorer (records : List (List Str)) (maxScore : Int) : Option Hits :=
  (parseCSV records).map (fun csvContent => { MaxScore := maxScore, csv := csvContent })

/-! ## Notions used to state the properties -/

/-- The counts, in record order, of the records whose column 0 normalises to the key `k`,
each column 2 being read by `count`. -/
def keyCounts (count : Str → Int) (records : List (List Str)) (k : Str) : List Int :=
  (records.filter (fun r => recordName ((r[0]?).getD []) == k)).map
    (fun r => count ((r[2]?).getD []))

/-- Whether some record has a column 0 that normalises to the key `k`. -/
def keyOccurs (records : List (List Str)) (k : Str) : Bool :=
  records.any (fun r => recordName ((r[0]?).getD []) == k)

/-- The number denoted by a string of decimal digits, `none` when a character is not a
decimal digit. -/
def digitsValue : List Char → Nat → Option Nat
  | [], acc => some acc
  | c :: cs, acc => if c.isDigit then digitsValue cs (acc * 10 + (c.toNat - 48)) else none

/-- The reading of a hit count as the specification words it: the integer that the text
denotes (an optional sign, then decimal digits), and 0 for a text that denotes none. -/
def specCount (s : Str) : Int :=
  match s with
  | [] => 0
  | c :: cs =>
    let ds : Str := if c == '+' || c == '-' then cs else c :: cs
    if ds.isEmpty then 0
    else
      match digitsValue ds 0 with
      | none => 0
      | some n => if c == '-' then -(n : Int) else (n : Int)

/-- The hits table as the specification words it: a key that occurs holds the sum of the
counts of its records, any other key is absent. -/
def specTable (records : List (List Str)) (k : Str) : Option Int :=
  if keyOccurs records k then some (keyCounts specCount records k).sum else none

/-- What `Hits.Score` makes of one entry, on the elements of its notes: the score added in
Go's `int` arithmetic, and the note of the hit count put after the notes. -/
def Hits.scored (hits : Hits) (old : fileEntry) : fileEntry :=
  { old with
    score := wrapInt (old.score + (hits.scoreFile (Dir old.relative)).1)
    notes := old.notes ++
      ["Hits: ".toList ++ formatInt (hits.scoreFile (Dir old.relative)).2 ++ ['\n']] }

/-- Two stored entries share no notes array into which `append` can write: their notes
lie in different backing arrays, or both are filled to their capacity. -/
def notesApart (a b : fileEntryMem) : Bool :=
  decide (a.notes.array ≠ b.notes.array) ||
    (decide (a.notes.len = a.notes.cap) && decide (b.notes.len = b.notes.cap))

/-- The entries `main` hands to `writeTestSpreadsheet`, given with the notes they show:
the files collected by `getAllFiles` (whose error `main` only prints), scored by the one
scorer, the hits scorer built with `getHitsScorer(analyticsPath, 15)`.  The result `none`
is a run-time panic. -/
def mainScored (grow : Nat → Nat) (docsPath : Str) (walk : List (Str × Option Str))
    (records : List (List Str)) : Option (List fileEntry) :=
  match getAllFiles docsPath walk with
  | none => none
  | some (files, _) =>
    match getHitsScorer records 15 with
    | none => none
    | some scorerInstance =>
      let stored := Memory.store [] files
      let scored := scorerInstance.Score grow stored.1 stored.2
      some (scored.2.map scored.1.entry)

/-- The data records of the spreadsheet `main` writes. -/
def mainReport (grow : Nat → Nat) (docsPath : Str) (walk : List (Str × Option Str))
    (records : List (List Str)) : Option (List (List Str)) :=
  (mainScored grow docsPath walk records).map writeTestSpreadsheet

/-- A page with the three fields of the end-to-end example. -/
def pageContent : Str := "---\ntitle: A\nowner: bob\ntest: yes\n---\n".toList

/-- The calls `filepath.Walk` makes for the tree `../istio.io` with the one file
`en/docs/a.md`: the root, the two directories, the file. -/
def walkPageA : List (Str × Option Str) :=
  [ ("../istio.io".toList, none),
    ("../istio.io/en".toList, none),
    ("../istio.io/en/docs".toList, none),
    ("../istio.io/en/docs/a.md".toList, some pageContent) ]

/-- The calls `filepath.Walk` makes for the tree `../istio.io` with the one file
`en/docs/a/index.md`. -/
def walkPageAIndex : List (Str × Option Str) :=
  [ ("../istio.io".toList, none),
    ("../istio.io/en".toList, none),
    ("../istio.io/en/docs".toList, none),
    ("../istio.io/en/docs/a".toList, none),
    ("../istio.io/en/docs/a/index.md".toList, some pageContent) ]

/-- A hits table with many hits for `docs/a/` and few for `docs/b/`. -/
def tableAB : Hits :=
  { MaxScore := 15, csv := [("docs/a/".toList, 2500), ("docs/b/".toList, 7)] }

/-- A memory with one array of two cells, the first holding a note. -/
def sharedMemory : Memory := [["shared".toList, []]]

/-- Two entries whose `notes` are the same slice of length 1 and capacity 2, as after
`shared := make([]string, 1, 2)` and `notes: shared` in both; the first has the largest
score an `int` holds. -/
def sharedEntries : List fileEntryMem :=
  [ { fullPath := [], relative := "en/docs/a/index.md".toList, url := [], tested := [],
      score := 9223372036854775807, title := [], owner := [],
      notes := { array := 0, offset := 0, len := 1, cap := 2 } },
    { fullPath := [], relative := "en/docs/b/index.md".toList, url := [], tested := [],
      score := 0, title := [], owner := [],
      notes := { array := 0, offset := 0, len := 1, cap := 2 } } ]

/-- A memory with two arrays, the second with a spare cell. -/
def apartMemory : Memory := [["one".toList], ["two".toList, []]]

/-- Two entries whose `notes` lie in the two arrays of `apartMemory`. -/
def apartEntries : List fileEntryMem :=
  [ { fullPath := [], relative := "en/docs/a/index.md".toList, url := [], tested := [],
      score := 3, title := [], owner := [],
      notes := { array := 0, offset := 0, len := 1, cap := 1 } },
    { fullPath := [], relative := "en/docs/b/index.md".toList, url := [], tested := [],
      score := 0, title := [], owner := [],
      notes := { array := 1, offset := 0, len := 1, cap := 2 } } ]

/-- The calls `filepath.Walk` makes for a tree under `../istio.io` with a blog page and a
task page. -/
def walkBlogTasks : List (Str × Option Str) :=
  [ ("../istio.io".toList, none),
    ("../istio.io/en".toList, none),
    ("../istio.io/en/blog".toList, none),
    ("../istio.io/en/blog/foo.md".toList, some pageContent),
    ("../istio.io/en/docs".toList, none),
    ("../istio.io/en/docs/tasks".toList, none),
    ("../istio.io/en/docs/tasks/foo.md".toList, some pageContent) ]

/-- The analytics row of the end-to-end example. -/
def analyticsRows : List (List Str) := [["/latest/docs/a/".toList, "x".toList, "500".toList]]

/-! ## Auxiliary facts -/

theorem tdiv_two_thirds : (maxScore * 2).tdiv 3 = 10 := by decide

theorem tdiv_one_third : (maxScore * 1).tdiv 3 = 5 := by decide

/-- C1. For every hits table and every path, `Hits.scoreFile` reads the key (the path without
a leading `en/`, followed by `/`) in the table, an absent key counting as 0 hits, and returns
that hit count `h` as its second result and, as its first, the score 15 when `h > 2000`,
10 when `400 < h ≤ 2000`, 5 when `10 < h ≤ 400` and 0 when `h ≤ 10`. -/
theorem scoreFile_spec (hits : Hits) (url : Str) :
    ∃ h : Int,
      h = (hits.csv.get? (TrimPrefix url "en/".toList ++ ['/'])).getD 0 ∧
      (hits.scoreFile url).2 = h ∧
      (hits.scoreFile url).1 =
        (if h > 2000 then 15 else if h > 400 then 10 else if h > 10 then 5 else 0) := by
  refine ⟨_, rfl, ?_, ?_⟩
  · unfold Hits.scoreFile GoMap.index
    simp only []
    split_ifs <;> rfl
  · unfold Hits.scoreFile GoMap.index
    simp only [tdiv_two_thirds, tdiv_one_third]
    split_ifs <;> rfl

/-- C2. For every entry with a non-negative score, `getPriority` returns `P0` when the score
exceeds 10, `P1` when it lies in (5, 10], `P2` when it lies in (0, 5], and `P3` when it is 0;
these four cases are the only ones. -/
theorem getPriority_spec (file : fileEntry) (h : 0 ≤ file.score) :
    (file.score > 10 ∧ getPriority file = "P0".toList) ∨
    (5 < file.score ∧ file.score ≤ 10 ∧ getPriority file = "P1".toList) ∨
    (0 < file.score ∧ file.score ≤ 5 ∧ getPriority file = "P2".toList) ∨
    (file.score = 0 ∧ getPriority file = "P3".toList) := by
  unfold getPriority
  simp only [tdiv_two_thirds, tdiv_one_third]
  by_cases h1 : file.score > 10
  · left; exact ⟨h1, by rw [if_pos h1]; rfl⟩
  · by_cases h2 : file.score > 5
    · right; left
      exact ⟨h2, by omega, by rw [if_neg h1, if_pos h2]; rfl⟩
    · by_cases h3 : file.score > 0
      · right; right; left
        exact ⟨h3, by omega, by rw [if_neg h1, if_neg h2, if_pos h3]; rfl⟩
      · right; right; right
        have h4 : file.score = 0 := by omega
        exact ⟨h4, by rw [if_neg h1, if_neg h2, if_neg h3, if_pos h4]; rfl⟩

/-- Witness of C2: an entry of score 7 is non-negative and gets `P1`. -/
theorem getPriority_spec_witness :
    0 ≤ (7 : Int) ∧ getPriority ⟨[], [], [], [], 7, [], [], []⟩ = "P1".toList := by
  refine ⟨by decide, ?_⟩
  have h := getPriority_spec ⟨[], [], [], [], 7, [], [], []⟩ (by decide)
  rcases h with h | h | h | h
  · exact absurd h.1 (by decide)
  · exact h.2.2
  · exact absurd h.2.1 (by decide)
  · exact absurd h.1 (by decide)

/-! ## Facts about the walk -/

theorem Ext_md (pre : Str) : Ext (pre ++ "foo.md".toList) = ".md".toList := by
  have h : (pre ++ "foo.md".toList).reverse
      = 'd' :: 'm' :: '.' :: ("foo".toList.reverse ++ pre.reverse) := by
    simp
  unfold Ext
  rw [h]
  simp [extScan]

theorem getAllFilesWalk_cons (root path : Str) (content : Option Str)
    (rest : List (Str × Option Str)) (files : List fileEntry) :
    getAllFilesWalk root ((path, content) :: rest) files =
      if path.length < root.length then none
      else if (Ext path == ".md".toList && !skipFile (relativePath root path)) = true then
        match content with
        | none => some (files, some ("Unable to open file ".toList ++ path ++ ['\n']))
        | some fileContent =>
          getAllFilesWalk root rest
            (files ++ [newFileEntry path (relativePath root path) fileContent])
      else getAllFilesWalk root rest files :=
  rfl

theorem getAllFilesWalk_sound (root : Str) :
    ∀ (walk : List (Str × Option Str)) (acc files : List fileEntry) (err : Option Str),
      getAllFilesWalk root walk acc = some (files, err) →
      ∀ e ∈ files, e ∈ acc ∨ ∃ path content, (path, some content) ∈ walk ∧
        Ext path = ".md".toList ∧ skipFile (relativePath root path) = false ∧
        e = newFileEntry path (relativePath root path) content
  | [], acc, files, err, h, e, he => by
    simp only [getAllFilesWalk, Option.some.injEq, Prod.mk.injEq] at h
    left
    rw [h.1]
    exact he
  | (path, content) :: rest, acc, files, err, h, e, he => by
    rw [getAllFilesWalk_cons] at h
    by_cases hlen : path.length < root.length
    · rw [if_pos hlen] at h
      exact absurd h (by simp)
    · rw [if_neg hlen] at h
      by_cases hc : (Ext path == ".md".toList && !skipFile (relativePath root path)) = true
      · rw [if_pos hc] at h
        have hc2 : Ext path = ".md".toList ∧ skipFile (relativePath root path) = false := by
          simpa using hc
        cases content with
        | none =>
          simp only [Option.some.injEq, Prod.mk.injEq] at h
          left
          rw [h.1]
          exact he
        | some fileContent =>
          rcases getAllFilesWalk_sound root rest _ files err h e he with h1 | ⟨p, c, hm, h2⟩
          · rcases List.mem_append.mp h1 with h3 | h3
            · left
              exact h3
            · right
              refine ⟨path, fileContent, List.mem_cons_self _ _, hc2.1, hc2.2, ?_⟩
              simpa using h3
          · right
            exact ⟨p, c, List.mem_cons_of_mem _ hm, h2⟩
      · rw [if_neg hc] at h
        rcases getAllFilesWalk_sound root rest _ files err h e he with h1 | ⟨p, c, hm, h2⟩
        · left
          exact h1
        · right
          exact ⟨p, c, List.mem_cons_of_mem _ hm, h2⟩

theorem getAllFilesWalk_complete (root : Str) :
    ∀ (walk : List (Str × Option Str)) (acc files : List fileEntry),
      getAllFilesWalk root walk acc = some (files, none) →
      (∀ e ∈ acc, e ∈ files) ∧
      ∀ path content, (path, content) ∈ walk → Ext path = ".md".toList →
        skipFile (relativePath root path) = false →
        ∃ fileContent, content = some fileContent ∧
          newFileEntry path (relativePath root path) fileContent ∈ files
  | [], acc, files, h => by
    simp only [getAllFilesWalk, Option.some.injEq, Prod.mk.injEq, and_true] at h
    subst h
    exact ⟨fun e he => he, fun path content hm => absurd hm (List.not_mem_nil _)⟩
  | (p, c) :: rest, acc, files, h => by
    rw [getAllFilesWalk_cons] at h
    by_cases hlen : p.length < root.length
    · rw [if_pos hlen] at h
      exact absurd h (by simp)
    · rw [if_neg hlen] at h
      by_cases hc : (Ext p == ".md".toList && !skipFile (relativePath root p)) = true
      · rw [if_pos hc] at h
        cases c with
        | none => simp at h
        | some fileContent =>
          obtain ⟨hacc, hrest⟩ := getAllFilesWalk_complete root rest _ files h
          refine ⟨fun e he => hacc e (List.mem_append_left _ he), ?_⟩
          intro path content hm hext hskip
          rcases List.mem_cons.mp hm with heq | hin
          · simp only [Prod.mk.injEq] at heq
            obtain ⟨hp, hcont⟩ := heq
            subst hp
            subst hcont
            exact ⟨fileContent, rfl, hacc _ (List.mem_append_right _ (List.mem_singleton_self _))⟩
          · exact hrest path content hin hext hskip
      · rw [if_neg hc] at h
        obtain ⟨hacc, hrest⟩ := getAllFilesWalk_complete root rest _ files h
        refine ⟨hacc, ?_⟩
        intro path content hm hext hskip
        rcases List.mem_cons.mp hm with heq | hin
        · simp only [Prod.mk.injEq] at heq
          obtain ⟨hp, hcont⟩ := heq
          subst hp
          exact absurd (by simp [hext, hskip]) hc
        · exact hrest path content hin hext hskip

theorem Ext_of_relativePath_foo (root path : Str) (dir : Str)
    (h : relativePath root path = dir ++ "foo.md".toList) : Ext path = ".md".toList := by
  unfold relativePath TrimPrefix at h
  have hsplit : path = path.take root.length ++ path.drop root.length :=
    (List.take_append_drop _ _).symm
  by_cases hp : HasPrefix (path.drop root.length) ['/'] = true
  · rw [if_pos hp] at h
    have h2 : path.drop root.length
        = (path.drop root.length).take 1 ++ (path.drop root.length).drop 1 :=
      (List.take_append_drop _ _).symm
    rw [show (['/'] : Str).length = 1 from rfl] at h
    rw [hsplit, h2, h, ← List.append_assoc, ← List.append_assoc]
    exact Ext_md _
  · rw [if_neg hp] at h
    rw [hsplit, h, ← List.append_assoc]
    exact Ext_md _

/-- The relative path is cut off by the length of the root string as given.  For a root
that `filepath.Walk`, which names the files by cleaned joins, does not keep as a prefix,
such as `./site`, it is not the path below the root: the blog page `site/en/blog/foo.md`
gets `n/blog/foo.md`, which `skipFile` does not reject. -/
theorem getAllFiles_root_not_clean :
    (getAllFiles "./site".toList
        [ ("./site".toList, none), ("site/en".toList, none), ("site/en/blog".toList, none),
          ("site/en/blog/foo.md".toList, some pageContent) ]).map
      (fun r => (r.1.map (fun e => e.relative), r.2))
      = some (["n/blog/foo.md".toList], none) ∧
    getAllFiles "./site/docs".toList [("./site".toList, none)] = none := by
  decide

/-- C7. `skipFile` is true exactly when the path has one of the 14 entries of `excludeDirs`
as a string prefix.  It is true of `en/blog/foo.md` and false of `en/docs/tasks/foo.md`.
Whatever the root and the tree, every entry `getAllFiles` returns has a relative path (the
one the walk computed for its file) that `skipFile` rejects, so none has the relative path
`en/blog/foo.md`; and when the walk ends without error, every file of the walk whose
relative path is `en/docs/tasks/foo.md` has its entry in the result. -/
theorem skipFile_spec :
    (∀ path : Str, skipFile path = true ↔ ∃ d ∈ excludeDirs, d <+: path) ∧
    excludeDirs.length = 14 ∧
    skipFile "en/blog/foo.md".toList = true ∧
    skipFile "en/docs/tasks/foo.md".toList = false ∧
    (∀ (root : Str) (walk : List (Str × Option Str)) (files : List fileEntry)
        (err : Option Str),
      getAllFiles root walk = some (files, err) →
      ∀ e ∈ files, skipFile e.relative = false ∧ e.relative ≠ "en/blog/foo.md".toList ∧
        ∃ content, (e.fullPath, some content) ∈ walk ∧
          e.relative = relativePath root e.fullPath) ∧
    (∀ (root : Str) (walk : List (Str × Option Str)) (files : List fileEntry),
      getAllFiles root walk = some (files, none) →
      ∀ (path : Str) (content : Option Str), (path, content) ∈ walk →
        relativePath root path = "en/docs/tasks/foo.md".toList →
        ∃ e ∈ files, e.fullPath = path ∧ e.relative = "en/docs/tasks/foo.md".toList) := by
  refine ⟨?_, by decide, by decide, by decide, ?_, ?_⟩
  · intro path
    unfold skipFile HasPrefix
    simp only [List.any_eq_true, List.isPrefixOf_iff_prefix]
  · intro root walk files err h e he
    rcases getAllFilesWalk_sound root walk [] files err h e he with h1 | ⟨p, c, hm, _, hskip, heq⟩
    · exact absurd h1 (List.not_mem_nil _)
    · subst heq
      refine ⟨hskip, ?_, c, hm, rfl⟩
      intro hb
      have hb2 : relativePath root p = "en/blog/foo.md".toList := hb
      rw [hb2] at hskip
      exact absurd hskip (by decide)
  · intro root walk files h path content hm hrel
    have hext : Ext path = ".md".toList :=
      Ext_of_relativePath_foo root path "en/docs/tasks/".toList (by rw [hrel]; decide)
    have hskip : skipFile (relativePath root path) = false := by
      rw [hrel]
      decide
    obtain ⟨fileContent, _, hin⟩ :=
      (getAllFilesWalk_complete root walk [] files h).2 path content hm hext hskip
    refine ⟨_, hin, rfl, ?_⟩
    show relativePath root path = _
    exact hrel

/-- Witness of C7: a walk with a blog page and a task page returns the task page only. -/
theorem skipFile_spec_witness :
    getAllFiles "../istio.io".toList walkBlogTasks
      = some ([newFileEntry "../istio.io/en/docs/tasks/foo.md".toList
                "en/docs/tasks/foo.md".toList pageContent], none) ∧
    (∀ e ∈ [newFileEntry "../istio.io/en/docs/tasks/foo.md".toList
              "en/docs/tasks/foo.md".toList pageContent],
      e.relative ≠ "en/blog/foo.md".toList) ∧
    (∃ e ∈ [newFileEntry "../istio.io/en/docs/tasks/foo.md".toList
              "en/docs/tasks/foo.md".toList pageContent],
      e.fullPath = "../istio.io/en/docs/tasks/foo.md".toList ∧
      e.relative = "en/docs/tasks/foo.md".toList) :=
  ⟨by decide,
   fun e he =>
    (skipFile_spec.2.2.2.2.1 "../istio.io".toList walkBlogTasks _ none (by decide) e he).2.1,
   skipFile_spec.2.2.2.2.2 "../istio.io".toList walkBlogTasks _ (by decide)
    "../istio.io/en/docs/tasks/foo.md".toList (some pageContent) (by decide) (by decide)⟩

/-- Counterexample to C8: with 2000 hits the score is 10, the 2/3 tier, not 5. -/
theorem scoreFile_2000_not_one_third :
    (Hits.scoreFile ⟨15, [("docs/".toList, 2000)]⟩ "en/docs".toList) = (10, 2000) ∧
    (Hits.scoreFile ⟨15, [("docs/".toList, 2000)]⟩ "en/docs".toList).1 ≠ 5 := by
  decide

/-- C8, amended. At the boundaries the score is: 2000 hits give 10 (the 2/3 tier, not the full
score) and 2001 give 15; 400 give 5 and 401 give 10; 10 give 0 and 11 give 5. -/
theorem scoreFile_boundaries (url : Str) (m : Int) :
    Hits.scoreFile ⟨m, [(TrimPrefix url "en/".toList ++ ['/'], 2000)]⟩ url = (10, 2000) ∧
    Hits.scoreFile ⟨m, [(TrimPrefix url "en/".toList ++ ['/'], 2001)]⟩ url = (15, 2001) ∧
    Hits.scoreFile ⟨m, [(TrimPrefix url "en/".toList ++ ['/'], 400)]⟩ url = (5, 400) ∧
    Hits.scoreFile ⟨m, [(TrimPrefix url "en/".toList ++ ['/'], 401)]⟩ url = (10, 401) ∧
    Hits.scoreFile ⟨m, [(TrimPrefix url "en/".toList ++ ['/'], 10)]⟩ url = (0, 10) ∧
    Hits.scoreFile ⟨m, [(TrimPrefix url "en/".toList ++ ['/'], 11)]⟩ url = (5, 11) := by
  have h10 : Int.tdiv 30 3 = 10 := by decide
  have h5 : Int.tdiv 15 3 = 5 := by decide
  simp [Hits.scoreFile, GoMap.index, GoMap.get?, maxScore, h10, h5]

theorem wrapInt_of_inRange (x : Int) (h1 : -(2 ^ 63) ≤ x) (h2 : x < 2 ^ 63) : wrapInt x = x := by
  unfold wrapInt
  norm_num at h1 h2 ⊢
  omega

theorem wrapInt_add_wrapInt (a b : Int) : wrapInt (wrapInt a + b) = wrapInt (a + b) := by
  unfold wrapInt
  norm_num
  omega

theorem TrimPrefix_length_le (s pre : Str) : (TrimPrefix s pre).length ≤ s.length := by
  unfold TrimPrefix
  split <;> simp

theorem recordName_fixed_iff (q : Str) :
    recordName q = q ↔
      HasPrefix q "/latest/".toList = false ∧ HasSuffix q "index.html".toList = false := by
  unfold recordName
  cases hs : HasSuffix q "index.html".toList with
  | true =>
    have hlen : "index.html".toList.length ≤ q.length := by
      unfold HasSuffix at hs
      exact (List.isSuffixOf_iff_suffix.mp hs).length_le
    have h10 : "index.html".toList.length = 10 := by decide
    have hne : TrimPrefix (TrimSuffix q "index.html".toList) "/latest/".toList ≠ q := by
      intro heq
      have h1 := TrimPrefix_length_le (TrimSuffix q "index.html".toList) "/latest/".toList
      rw [heq] at h1
      unfold TrimSuffix at h1
      rw [hs, if_pos rfl, List.length_take] at h1
      omega
    exact ⟨fun h => absurd h hne, fun h => Bool.noConfusion h.2⟩
  | false =>
    have ht : TrimSuffix q "index.html".toList = q := by
      unfold TrimSuffix
      rw [hs]
      rfl
    rw [ht]
    cases hp : HasPrefix q "/latest/".toList with
    | true =>
      have hlen : "/latest/".toList.length ≤ q.length := by
        unfold HasPrefix at hp
        exact (List.isPrefixOf_iff_prefix.mp hp).length_le
      have h8 : "/latest/".toList.length = 8 := by decide
      have hne : TrimPrefix q "/latest/".toList ≠ q := by
        intro heq
        have h1 : (TrimPrefix q "/latest/".toList).length = q.length := by rw [heq]
        unfold TrimPrefix at h1
        rw [hp, if_pos rfl, List.length_drop] at h1
        omega
      exact ⟨fun h => absurd h hne, fun h => Bool.noConfusion h.1⟩
    | false =>
      have : TrimPrefix q "/latest/".toList = q := by
        unfold TrimPrefix
        rw [hp]
        rfl
      exact ⟨fun _ => ⟨rfl, rfl⟩, fun _ => this⟩

/-! ## Facts about slices and `append` -/

theorem drop_set_add {α : Type} (v : α) : ∀ (off : Nat) (l : List α) (n : Nat),
    (l.set (off + n) v).drop off = (l.drop off).set n v
  | 0, l, n => by simp
  | off + 1, [], n => by simp
  | off + 1, x :: xs, n => by
    have h : off + 1 + n = (off + n) + 1 := by omega
    rw [h, List.set_cons_succ, List.drop_succ_cons, List.drop_succ_cons]
    exact drop_set_add v off xs n

theorem take_succ_set {α : Type} (v : α) : ∀ (n : Nat) (l : List α), n < l.length →
    (l.set n v).take (n + 1) = l.take n ++ [v]
  | _, [], h => by simp at h
  | 0, x :: xs, _ => by simp
  | n + 1, x :: xs, h => by
    have h2 : n < xs.length := by simpa using h
    rw [List.set_cons_succ, List.take_succ_cons, List.take_succ_cons, List.cons_append]
    rw [take_succ_set v n xs h2]

theorem take_drop_set {α : Type} (arr : List α) (off len : Nat) (v : α)
    (h : off + len < arr.length) :
    ((arr.set (off + len) v).drop off).take (len + 1) = (arr.drop off).take len ++ [v] := by
  rw [drop_set_add, take_succ_set]
  rw [List.length_drop]
  omega

theorem take_append_exact {α : Type} (l r : List α) (n : Nat) (h : l.length = n) :
    (l ++ r).take n = l := by
  subst h
  simp

theorem Memory.read_congr (mem mem2 : Memory) (s : StrSlice)
    (h : mem2.getD s.array [] = mem.getD s.array []) : mem2.read s = mem.read s := by
  unfold Memory.read
  rw [h]

theorem Memory.valid_iff (mem : Memory) (s : StrSlice) :
    mem.valid s = true ↔ s.len ≤ s.cap ∧ s.offset + s.cap ≤ (mem.getD s.array []).length := by
  unfold Memory.valid
  simp

theorem Memory.array_lt_of_spare (mem : Memory) (s : StrSlice) (hv : mem.valid s = true)
    (hs : s.len < s.cap) : s.array < mem.length := by
  rw [Memory.valid_iff] at hv
  by_contra hge
  have hnone : mem[s.array]? = none := List.getElem?_eq_none (by omega)
  have h0 : (mem.getD s.array []).length = 0 := by
    rw [List.getD_eq_getElem?_getD, hnone]
    rfl
  omega

theorem Memory.read_of_array_ge (mem mem2 : Memory) (s : StrSlice) (hv : mem.valid s = true)
    (hge : mem.length ≤ s.array) : mem2.read s = mem.read s := by
  have hlen : s.len = 0 := by
    by_contra hne
    have := Memory.array_lt_of_spare mem { s with len := 0 }
      (by rw [Memory.valid_iff] at hv ⊢; exact ⟨Nat.zero_le _, hv.2⟩)
      (by rw [Memory.valid_iff] at hv; show 0 < s.cap; omega)
    exact absurd this (by show ¬ s.array < mem.length; omega)
  unfold Memory.read
  rw [hlen]
  rfl

theorem Memory.append_getD (grow : Nat → Nat) (mem : Memory) (s : StrSlice) (v : Str) (a : Nat)
    (ha : a < mem.length) (hne : a ≠ s.array ∨ ¬ s.len < s.cap) :
    (mem.append grow s v).1.getD a [] = mem.getD a [] := by
  unfold Memory.append
  by_cases hs : s.len < s.cap
  · have hna : s.array ≠ a := by
      rcases hne with h | h
      · exact fun h2 => h h2.symm
      · exact absurd hs h
    rw [if_pos hs]
    simp only [List.getD_eq_getElem?_getD, List.getElem?_set_ne hna]
  · rw [if_neg hs]
    simp only [List.getD_eq_getElem?_getD, List.getElem?_append_left ha]

theorem Memory.append_length_le (grow : Nat → Nat) (mem : Memory) (s : StrSlice) (v : Str) :
    mem.length ≤ (mem.append grow s v).1.length := by
  unfold Memory.append
  split <;> simp

theorem Memory.append_size_le (grow : Nat → Nat) (mem : Memory) (s : StrSlice) (v : Str)
    (a : Nat) :
    (mem.getD a []).length ≤ ((mem.append grow s v).1.getD a []).length := by
  unfold Memory.append
  by_cases hs : s.len < s.cap
  · rw [if_pos hs]
    by_cases ha : s.array = a
    · subst ha
      by_cases hlt : s.array < mem.length
      · simp [List.getD_eq_getElem?_getD, List.getElem?_set_self hlt]
      · have hnone : mem[s.array]? = none := List.getElem?_eq_none (by omega)
        simp [List.getD_eq_getElem?_getD, hnone]
    · simp only [List.getD_eq_getElem?_getD, List.getElem?_set_ne ha]
      exact Nat.le_refl _
  · rw [if_neg hs]
    by_cases hlt : a < mem.length
    · simp only [List.getD_eq_getElem?_getD, List.getElem?_append_left hlt]
      exact Nat.le_refl _
    · have hnone : mem[a]? = none := List.getElem?_eq_none (by omega)
      simp [List.getD_eq_getElem?_getD, hnone]

theorem Memory.append_valid (grow : Nat → Nat) (mem : Memory) (s t : StrSlice) (v : Str)
    (ht : mem.valid t = true) : (mem.append grow s v).1.valid t = true := by
  rw [Memory.valid_iff] at ht ⊢
  exact ⟨ht.1, Nat.le_trans ht.2 (Memory.append_size_le grow mem s v t.array)⟩

theorem Memory.append_read (grow : Nat → Nat) (mem : Memory) (s : StrSlice) (v : Str)
    (hv : mem.valid s = true) :
    (mem.append grow s v).1.read (mem.append grow s v).2 = mem.read s ++ [v] := by
  have hv2 := (Memory.valid_iff mem s).mp hv
  unfold Memory.append
  by_cases hs : s.len < s.cap
  · have hlt : s.array < mem.length := Memory.array_lt_of_spare mem s hv hs
    rw [if_pos hs]
    unfold Memory.read
    have hget : (mem.set s.array ((mem.getD s.array []).set (s.offset + s.len) v)).getD s.array []
        = (mem.getD s.array []).set (s.offset + s.len) v := by
      simp only [List.getD_eq_getElem?_getD, List.getElem?_set_self hlt, Option.getD_some]
    show List.take (s.len + 1) (List.drop s.offset
      ((mem.set s.array ((mem.getD s.array []).set (s.offset + s.len) v)).getD s.array [])) = _
    rw [hget]
    exact take_drop_set _ _ _ _ (by omega)
  · rw [if_neg hs]
    have hrl : (mem.read s).length = s.len := by
      unfold Memory.read
      rw [List.length_take, List.length_drop]
      omega
    unfold Memory.read at hrl ⊢
    show List.take (s.len + 1) (List.drop 0 ((mem ++ [_]).getD mem.length [])) = _
    have hget : (mem ++ [List.take s.len (List.drop s.offset (mem.getD s.array []))
        ++ v :: List.replicate (grow (s.len + 1)) []]).getD mem.length []
        = List.take s.len (List.drop s.offset (mem.getD s.array []))
          ++ v :: List.replicate (grow (s.len + 1)) [] := by
      simp [List.getD_eq_getElem?_getD]
    rw [hget, List.drop_zero]
    have happ : List.take s.len (List.drop s.offset (mem.getD s.array []))
        ++ v :: List.replicate (grow (s.len + 1)) []
        = (List.take s.len (List.drop s.offset (mem.getD s.array [])) ++ [v])
          ++ List.replicate (grow (s.len + 1)) [] := by
      simp
    rw [happ]
    exact take_append_exact _ _ _ (by rw [List.length_append, hrl]; rfl)

theorem Memory.append_array (grow : Nat → Nat) (mem : Memory) (s : StrSlice) (v : Str) :
    (s.len < s.cap ∧ (mem.append grow s v).2.array = s.array) ∨
    (¬ s.len < s.cap ∧ (mem.append grow s v).2.array = mem.length) := by
  unfold Memory.append
  by_cases hs : s.len < s.cap
  · left
    rw [if_pos hs]
    exact ⟨hs, rfl⟩
  · right
    rw [if_neg hs]
    exact ⟨hs, rfl⟩

/-! ## Facts about `Hits.Score` -/

theorem Score_cons (hits : Hits) (grow : Nat → Nat) (mem : Memory) (e : fileEntryMem)
    (rest : List fileEntryMem) :
    hits.Score grow mem (e :: rest) =
      ((hits.Score grow (hits.scoreEntry grow mem e).1 rest).1,
       (hits.scoreEntry grow mem e).2 :: (hits.Score grow (hits.scoreEntry grow mem e).1 rest).2) :=
  rfl

theorem Score_getD (hits : Hits) (grow : Nat → Nat) (a : Nat) :
    ∀ (entries : List fileEntryMem) (mem : Memory), a < mem.length →
      (∀ e ∈ entries, e.notes.len < e.notes.cap → e.notes.array ≠ a) →
      (hits.Score grow mem entries).1.getD a [] = mem.getD a []
  | [], mem, _, _ => rfl
  | e :: rest, mem, ha, hsp => by
    rw [Score_cons]
    have hstep : (hits.scoreEntry grow mem e).1.getD a [] = mem.getD a [] := by
      unfold Hits.scoreEntry
      apply Memory.append_getD grow mem e.notes _ a ha
      by_cases hs : e.notes.len < e.notes.cap
      · left
        exact fun h => hsp e (List.mem_cons_self e rest) hs h.symm
      · right
        exact hs
    have hlen : a < (hits.scoreEntry grow mem e).1.length :=
      Nat.lt_of_lt_of_le ha (Memory.append_length_le grow mem e.notes _)
    show (hits.Score grow (hits.scoreEntry grow mem e).1 rest).1.getD a [] = _
    rw [Score_getD hits grow a rest _ hlen
      (fun e2 h2 => hsp e2 (List.mem_cons_of_mem e h2)), hstep]

theorem Memory.entry_congr (mem mem2 : Memory) (e : fileEntryMem)
    (h : mem2.read e.notes = mem.read e.notes) : mem2.entry e = mem.entry e := by
  unfold Memory.entry
  rw [h]

theorem scoreEntry_entry (hits : Hits) (grow : Nat → Nat) (mem : Memory) (e : fileEntryMem)
    (hv : mem.valid e.notes = true) :
    (hits.scoreEntry grow mem e).1.entry (hits.scoreEntry grow mem e).2
      = hits.scored (mem.entry e) := by
  have h := Memory.append_read grow mem e.notes
    ("Hits: ".toList ++ formatInt (hits.scoreFile (Dir e.relative)).2 ++ ['\n']) hv
  unfold Hits.scoreEntry Hits.scored Memory.entry
  simp only []
  rw [h]

theorem Score_entries (hits : Hits) (grow : Nat → Nat) :
    ∀ (entries : List fileEntryMem) (mem : Memory),
      (∀ e ∈ entries, mem.valid e.notes = true) →
      entries.Pairwise (fun a b => notesApart a b = true) →
      (hits.Score grow mem entries).2.map (hits.Score grow mem entries).1.entry
        = (entries.map mem.entry).map hits.scored
  | [], mem, _, _ => rfl
  | e :: rest, mem, hvalid, hsep => by
    have hve : mem.valid e.notes = true := hvalid e (List.mem_cons_self e rest)
    have hvr : ∀ e2 ∈ rest, mem.valid e2.notes = true :=
      fun e2 h2 => hvalid e2 (List.mem_cons_of_mem e h2)
    have hap : ∀ e2 ∈ rest, notesApart e e2 = true := (List.pairwise_cons.mp hsep).1
    have hsepr := (List.pairwise_cons.mp hsep).2
    have hap2 : ∀ e2 ∈ rest, e.notes.array ≠ e2.notes.array ∨
        (e.notes.len = e.notes.cap ∧ e2.notes.len = e2.notes.cap) := by
      intro e2 h2
      have := hap e2 h2
      unfold notesApart at this
      simpa using this
    -- the memory after the first entry
    have hvr1 : ∀ e2 ∈ rest, (hits.scoreEntry grow mem e).1.valid e2.notes = true :=
      fun e2 h2 => Memory.append_valid grow mem e.notes e2.notes _ (hvr e2 h2)
    have ih := Score_entries hits grow rest (hits.scoreEntry grow mem e).1 hvr1 hsepr
    -- the entries of the rest show the same notes before and after the first step
    have hrest : rest.map (hits.scoreEntry grow mem e).1.entry = rest.map mem.entry := by
      apply List.map_congr_left
      intro e2 h2
      apply Memory.entry_congr
      by_cases hlt : e2.notes.array < mem.length
      · apply Memory.read_congr
        unfold Hits.scoreEntry
        apply Memory.append_getD grow mem e.notes _ _ hlt
        rcases hap2 e2 h2 with h | h
        · left
          exact fun h3 => h h3.symm
        · right
          omega
      · exact Memory.read_of_array_ge mem _ e2.notes (hvr e2 h2) (by omega)
    -- the first entry shows the same notes after the rest is treated
    have hfirst : (hits.Score grow (hits.scoreEntry grow mem e).1 rest).1.entry
        (hits.scoreEntry grow mem e).2
        = (hits.scoreEntry grow mem e).1.entry (hits.scoreEntry grow mem e).2 := by
      apply Memory.entry_congr
      apply Memory.read_congr
      have harr := Memory.append_array grow mem e.notes
        ("Hits: ".toList ++ formatInt (hits.scoreFile (Dir e.relative)).2 ++ ['\n'])
      have hlen := Memory.append_length_le grow mem e.notes
        ("Hits: ".toList ++ formatInt (hits.scoreFile (Dir e.relative)).2 ++ ['\n'])
      have hnew : (hits.scoreEntry grow mem e).2.notes.array
          = (mem.append grow e.notes
              ("Hits: ".toList ++ formatInt (hits.scoreFile (Dir e.relative)).2 ++ ['\n'])).2.array :=
        rfl
      have hmem : (hits.scoreEntry grow mem e).1
          = (mem.append grow e.notes
              ("Hits: ".toList ++ formatInt (hits.scoreFile (Dir e.relative)).2 ++ ['\n'])).1 :=
        rfl
      apply Score_getD hits grow _ rest
      · rw [hnew, hmem]
        rcases harr with ⟨hs, ha⟩ | ⟨hs, ha⟩
        · rw [ha]
          exact Nat.lt_of_lt_of_le (Memory.array_lt_of_spare mem e.notes hve hs) hlen
        · rw [ha]
          unfold Memory.append
          rw [if_neg hs]
          simp
      · intro e2 h2 hsp2
        rw [hnew]
        rcases harr with ⟨hs, ha⟩ | ⟨hs, ha⟩
        · rw [ha]
          rcases hap2 e2 h2 with h | h
          · exact fun h3 => h h3.symm
          · omega
        · rw [ha]
          have := Memory.array_lt_of_spare mem e2.notes (hvr e2 h2) hsp2
          omega
    rw [Score_cons]
    show (hits.Score grow (hits.scoreEntry grow mem e).1 rest).1.entry
          (hits.scoreEntry grow mem e).2
        :: (hits.Score grow (hits.scoreEntry grow mem e).1 rest).2.map
            (hits.Score grow (hits.scoreEntry grow mem e).1 rest).1.entry
      = hits.scored (mem.entry e) :: (rest.map mem.entry).map hits.scored
    rw [hfirst, scoreEntry_entry hits grow mem e hve, ih, hrest]

/-- Counterexample to C4: two entries whose notes are the same slice with a spare cell, the
first with the score 9223372036854775807 and 2500 hits, the second with 7 hits.  The
claim gives the first entry the score 9223372036854775822 and the last note
`Hits: 2500`; the code leaves it with the score -9223372036854775794 and, `append`
having written twice into the one cell, with the last note `Hits: 7`. -/
theorem Score_shared_notes :
    (∀ e ∈ sharedEntries, sharedMemory.valid e.notes = true) ∧
    ((tableAB.Score (fun n => n) sharedMemory sharedEntries).2.map
        (tableAB.Score (fun n => n) sharedMemory sharedEntries).1.entry).map
        (fun e => (e.score, e.notes))
      = [(-9223372036854775794, ["shared".toList, "Hits: 7\n".toList]),
         (0, ["shared".toList, "Hits: 7\n".toList])] ∧
    (sharedEntries.map sharedMemory.entry).map
        (fun old => (old.score + (tableAB.scoreFile (Dir old.relative)).1,
          old.notes ++
            ["Hits: ".toList ++ formatInt (tableAB.scoreFile (Dir old.relative)).2 ++ ['\n']]))
      = [(9223372036854775822, ["shared".toList, "Hits: 2500\n".toList]),
         (0, ["shared".toList, "Hits: 7\n".toList])] := by
  refine ⟨by decide, by decide, by decide⟩

/-- C4, amended. For every hits table, every memory and every list of entries with valid
notes slices of which no two share a backing array (unless both are filled to capacity),
`Hits.Score` returns the entries in the same number and order; each entry has its score
equal to the previous score plus the `scoreFile` score of `filepath.Dir(relative)` in Go's
`int` addition (the exact sum whenever that sum fits in 64 bits), shows its previous notes
followed by the one note `Hits: <h>` with a newline, `h` being the hit count read in the
table, and has every other field unchanged. -/
theorem Score_spec (hits : Hits) (grow : Nat → Nat) (mem : Memory)
    (fileEntries : List fileEntryMem)
    (hvalid : ∀ e ∈ fileEntries, mem.valid e.notes = true)
    (hapart : fileEntries.Pairwise (fun a b => notesApart a b = true)) :
    List.Forall₂
      (fun (old new : fileEntry) =>
        new.score = wrapInt (old.score + (hits.scoreFile (Dir old.relative)).1) ∧
        (-(2 ^ 63) ≤ old.score + (hits.scoreFile (Dir old.relative)).1 ∧
            old.score + (hits.scoreFile (Dir old.relative)).1 < 2 ^ 63 →
          new.score = old.score + (hits.scoreFile (Dir old.relative)).1) ∧
        new.notes = old.notes ++
          ["Hits: ".toList ++
            formatInt ((hits.csv.get? (TrimPrefix (Dir old.relative) "en/".toList ++ ['/'])).getD 0)
            ++ ['\n']] ∧
        new.fullPath = old.fullPath ∧ new.relative = old.relative ∧ new.url = old.url ∧
        new.tested = old.tested ∧ new.title = old.title ∧ new.owner = old.owner)
      (fileEntries.map mem.entry)
      ((hits.Score grow mem fileEntries).2.map (hits.Score grow mem fileEntries).1.entry) := by
  rw [Score_entries hits grow fileEntries mem hvalid hapart, List.forall₂_map_right_iff,
    List.forall₂_same]
  intro old _
  have h2 : (hits.scoreFile (Dir old.relative)).2
      = (hits.csv.get? (TrimPrefix (Dir old.relative) "en/".toList ++ ['/'])).getD 0 := by
    unfold Hits.scoreFile GoMap.index
    simp only []
    split_ifs <;> rfl
  refine ⟨rfl, ?_, ?_, rfl, rfl, rfl, rfl, rfl, rfl⟩
  · intro h
    exact wrapInt_of_inRange _ h.1 h.2
  · show old.notes ++ _ = _
    rw [h2]

/-- Witness of C4: two entries with notes in two arrays, one filled and one with a spare
cell; both come back with their own note. -/
theorem Score_spec_witness :
    (∀ e ∈ apartEntries, apartMemory.valid e.notes = true) ∧
    apartEntries.Pairwise (fun a b => notesApart a b = true) ∧
    ((tableAB.Score (fun n => n) apartMemory apartEntries).2.map
        (tableAB.Score (fun n => n) apartMemory apartEntries).1.entry).length = 2 ∧
    ((tableAB.Score (fun n => n) apartMemory apartEntries).2.map
        (tableAB.Score (fun n => n) apartMemory apartEntries).1.entry).map
        (fun e => (e.score, e.notes))
      = [(18, ["one".toList, "Hits: 2500\n".toList]),
         (0, ["two".toList, "Hits: 7\n".toList])] :=
  ⟨by decide, by decide,
   (Score_spec tableAB (fun n => n) apartMemory apartEntries (by decide) (by decide)).length_eq.symm,
   by decide⟩

/-- Counterexample to C9: `index.htmlindex.html` normalises to `index.html`, which
normalises to the empty string. -/
theorem recordName_not_idempotent :
    recordName "index.htmlindex.html".toList = "index.html".toList ∧
    recordName (recordName "index.htmlindex.html".toList) = [] ∧
    recordName (recordName "index.htmlindex.html".toList)
      ≠ recordName "index.htmlindex.html".toList := by
  decide

/-- C9, amended. Normalising a normalised path again returns it exactly when it neither
starts with `/latest/` nor ends with `index.html`; each affix is removed once only. -/
theorem recordName_idempotent_iff (p : Str) :
    recordName (recordName p) = recordName p ↔
      HasPrefix (recordName p) "/latest/".toList = false ∧
      HasSuffix (recordName p) "index.html".toList = false :=
  recordName_fixed_iff (recordName p)

theorem matchHere_none (lit s : Str) (h : ¬ lit <+: s) : matchHere lit s = none := by
  unfold matchHere
  rw [if_neg]
  rwa [List.isPrefixOf_iff_prefix]

theorem FindString_cons_none (lit : Str) (c : Char) (cs : Str)
    (h : matchHere lit (c :: cs) = none) : FindString lit (c :: cs) = FindString lit cs := by
  simp only [FindString, h]

theorem FindString_of_prefix (lit s : Str) (h : lit <+: s) :
    FindString lit s = (matchHere lit s).getD [] := by
  have hp : lit.isPrefixOf s = true := List.isPrefixOf_iff_prefix.mpr h
  cases s with
  | nil => rfl
  | cons c cs =>
    unfold FindString
    unfold matchHere
    rw [if_pos hp]
    rfl

theorem FindString_of_not_infix (lit : Str) (hne : lit ≠ []) (body : Str)
    (h : ¬ lit <:+: body) : FindString lit body = [] := by
  induction body with
  | nil =>
    unfold FindString
    rw [matchHere_none]
    · rfl
    · intro hp
      exact hne (List.prefix_nil.mp hp)
  | cons c cs ih =>
    rw [FindString_cons_none lit c cs (matchHere_none lit (c :: cs) (fun hp => h hp.isInfix))]
    exact ih (fun hi => h (hi.trans (List.suffix_cons c cs).isInfix))

theorem FindString_first (lit pre rest : Str)
    (h : ¬ lit <:+: pre ++ lit.dropLast) (hr : lit <+: rest) :
    FindString lit (pre ++ rest) = FindString lit rest := by
  induction pre with
  | nil => rfl
  | cons c p ih =>
    have hlen : lit.length ≤ ((c :: p) ++ lit.dropLast).length := by
      simp only [List.length_append, List.length_cons, List.length_dropLast]
      omega
    have hX : ((c :: p) ++ lit.dropLast) <+: ((c :: p) ++ rest) :=
      (List.prefix_append_right_inj (c :: p)).mpr ((List.dropLast_prefix lit).trans hr)
    have hno : ¬ lit <+: (c :: p) ++ rest := by
      intro hp
      exact h (List.prefix_of_prefix_length_le hp hX hlen).isInfix
    show FindString lit (c :: (p ++ rest)) = _
    rw [FindString_cons_none lit c (p ++ rest) (matchHere_none lit (c :: (p ++ rest)) hno)]
    exact ih (fun hi => h (hi.trans (List.suffix_cons c (p ++ lit.dropLast)).isInfix))

theorem getAndTrimField_absent (body : Str) (h : ¬ "test:".toList <:+: body) :
    getAndTrimField "test".toList body = [] := by
  unfold getAndTrimField
  have hl : "test".toList ++ [':'] = "test:".toList := by decide
  rw [hl, FindString_of_not_infix "test:".toList (by decide) body h]
  decide

theorem matchHere_test_yes (post : Str) (hpost : post = [] ∨ post.head? = some '\n') :
    matchHere "test:".toList ("test: yes".toList ++ post) = some "test: yes".toList := by
  rcases hpost with h | h
  · subst h
    decide
  · cases post with
    | nil => simp at h
    | cons c t =>
      simp only [List.head?_cons, Option.some.injEq] at h
      subst h
      simp [matchHere, reSpace, reWordBarSlash, reDot, Char.isAlphanum, Char.isAlpha, Char.isUpper,
        Char.isLower, Char.isDigit]

theorem getAndTrimField_first_yes (pre post : Str)
    (hfirst : ¬ "test:".toList <:+: pre ++ "test".toList)
    (hpost : post = [] ∨ post.head? = some '\n') :
    getAndTrimField "test".toList (pre ++ "test: yes".toList ++ post) = "yes".toList := by
  unfold getAndTrimField
  have hl : "test".toList ++ [':'] = "test:".toList := by decide
  have hd : "test:".toList.dropLast = "test".toList := by decide
  have hr : "test:".toList <+: "test: yes".toList ++ post :=
    ⟨" yes".toList ++ post, by simp⟩
  rw [hl, List.append_assoc,
    FindString_first "test:".toList pre _ (by rw [hd]; exact hfirst) hr,
    FindString_of_prefix _ _ hr, matchHere_test_yes post hpost]
  decide

/-- Counterexample to C5: the text has the line `test: yes`, but an earlier `test:` is the
one the regular expression finds. -/
theorem getAndTrimField_line_not_first :
    "test: yes".toList ∈ textLines "test: no\ntest: yes".toList ∧
    getAndTrimField "test".toList "test: no\ntest: yes".toList = "no".toList ∧
    getAndTrimField "test".toList "test: no\ntest: yes".toList ≠ "yes".toList := by
  decide

/-- C5, amended. When the first occurrence of `test:` in the text is followed by ` yes` and
then by the end of the line or of the text, `getAndTrimField("test", text)` is `yes`; when
`test:` does not occur in the text it is the empty string. -/
theorem getAndTrimField_test_spec (body : Str) :
    (∀ pre post : Str, body = pre ++ "test: yes".toList ++ post →
      ¬ "test:".toList <:+: pre ++ "test".toList →
      (post = [] ∨ post.head? = some '\n') →
      getAndTrimField "test".toList body = "yes".toList) ∧
    (¬ "test:".toList <:+: body → getAndTrimField "test".toList body = []) := by
  refine ⟨?_, getAndTrimField_absent body⟩
  intro pre post hb hfirst hpost
  rw [hb]
  exact getAndTrimField_first_yes pre post hfirst hpost

/-- Witness of C5 on a page with, and a page without, the `test:` line. -/
theorem getAndTrimField_test_spec_witness :
    getAndTrimField "test".toList "title: A\nowner: bob\ntest: yes\n".toList = "yes".toList ∧
    getAndTrimField "test".toList "title: A\nowner: bob\n".toList = [] :=
  ⟨(getAndTrimField_test_spec "title: A\nowner: bob\ntest: yes\n".toList).1
      "title: A\nowner: bob\n".toList "\n".toList (by decide) (by decide) (by decide),
   (getAndTrimField_test_spec "title: A\nowner: bob\n".toList).2 (by decide)⟩

/-- Counterexample to C6: for `test: maybe` the result is `maybe`, which is none of the four
values, and is not `unknown`. -/
theorem isTested_not_enumerated :
    isTested "test: maybe".toList = "maybe".toList ∧
    isTested "test: maybe".toList ∉ [testNotApplicable, testNo, testYes, testUnknown] ∧
    isTested "test: maybe".toList ≠ testUnknown := by
  decide

/-- C6, amended. `isTested` returns `unknown` when the text has no `test:` or the extracted
value is empty, and otherwise returns the extracted value as it is; so the result is one of
`n/a`, `no`, `yes`, `unknown` exactly when the extracted value is empty or one of them. -/
theorem isTested_spec (content : Str) :
    (¬ "test:".toList <:+: content → isTested content = testUnknown) ∧
    (getAndTrimField "test".toList content = [] → isTested content = testUnknown) ∧
    (getAndTrimField "test".toList content ≠ [] →
      isTested content = getAndTrimField "test".toList content) ∧
    (isTested content ∈ [testNotApplicable, testNo, testYes, testUnknown] ↔
      getAndTrimField "test".toList content ∈
        [[], testNotApplicable, testNo, testYes, testUnknown]) := by
  have he : getAndTrimField "test".toList content = [] → isTested content = testUnknown := by
    intro h
    unfold isTested
    rw [h]
    rfl
  have hn : getAndTrimField "test".toList content ≠ [] →
      isTested content = getAndTrimField "test".toList content := by
    intro h
    unfold isTested
    cases hv : getAndTrimField "test".toList content with
    | nil => exact absurd hv h
    | cons c cs => rfl
  refine ⟨fun h => he (getAndTrimField_absent content h), he, hn, ?_⟩
  by_cases h : getAndTrimField "test".toList content = []
  · rw [he h, h]
    decide
  · rw [hn h]
    constructor
    · intro hm
      exact List.mem_cons_of_mem _ hm
    · intro hm
      rcases List.mem_cons.mp hm with h0 | h0
      · exact absurd h0 h
      · exact h0

/-- Witness of C6 on three small texts. -/
theorem isTested_spec_witness :
    isTested "title: A\n".toList = testUnknown ∧
    isTested "test:".toList = testUnknown ∧
    isTested "test: maybe".toList = "maybe".toList :=
  ⟨(isTested_spec "title: A\n".toList).1 (by decide),
   (isTested_spec "test:".toList).2.1 (by decide),
   ((isTested_spec "test: maybe".toList).2.2.1 (by decide)).trans (by decide)⟩

theorem GoMap.get?_set_self (m : GoMap) (k : Str) (v : Int) : (m.set k v).get? k = some v := by
  induction m with
  | nil => simp [GoMap.set, GoMap.get?]
  | cons p rest ih =>
    obtain ⟨k', v'⟩ := p
    by_cases h : k' = k
    · simp [GoMap.set, GoMap.get?, h]
    · simp [GoMap.set, GoMap.get?, h, ih]

theorem GoMap.get?_set_ne (m : GoMap) (k k2 : Str) (v : Int) (hne : k ≠ k2) :
    (m.set k v).get? k2 = m.get? k2 := by
  induction m with
  | nil => simp [GoMap.set, GoMap.get?, hne]
  | cons p rest ih =>
    obtain ⟨k', v'⟩ := p
    by_cases h : k' = k
    · subst h
      simp [GoMap.set, GoMap.get?, hne]
    · simp [GoMap.set, GoMap.get?, h, ih]

theorem GoMap.index_set_self (m : GoMap) (k : Str) (v : Int) : (m.set k v).index k = v := by
  unfold GoMap.index
  rw [GoMap.get?_set_self]
  rfl

theorem GoMap.index_set_ne (m : GoMap) (k k2 : Str) (v : Int) (hne : k ≠ k2) :
    (m.set k v).index k2 = m.index k2 := by
  unfold GoMap.index
  rw [GoMap.get?_set_ne m k k2 v hne]

theorem keyOccurs_cons (r : List Str) (rest : List (List Str)) (k : Str) :
    keyOccurs (r :: rest) k = (recordName ((r[0]?).getD []) == k || keyOccurs rest k) := rfl

theorem keyCounts_cons_eq (count : Str → Int) (r : List Str) (rest : List (List Str)) (k : Str)
    (h : recordName ((r[0]?).getD []) = k) :
    keyCounts count (r :: rest) k = count ((r[2]?).getD []) :: keyCounts count rest k := by
  unfold keyCounts
  rw [List.filter_cons_of_pos (by simpa using h), List.map_cons]

theorem keyCounts_cons_ne (count : Str → Int) (r : List Str) (rest : List (List Str)) (k : Str)
    (h : recordName ((r[0]?).getD []) ≠ k) :
    keyCounts count (r :: rest) k = keyCounts count rest k := by
  unfold keyCounts
  rw [List.filter_cons_of_neg (by simpa using h)]

theorem keyCounts_of_not_occurs (count : Str → Int) (records : List (List Str)) (k : Str)
    (h : keyOccurs records k = false) : keyCounts count records k = [] := by
  induction records with
  | nil => rfl
  | cons r rest ih =>
    rw [keyOccurs_cons, Bool.or_eq_false_iff] at h
    rw [keyCounts_cons_ne count r rest k (by simpa using h.1)]
    exact ih h.2

theorem parseCSVLoop_spec (records : List (List Str)) (h3 : ∀ r ∈ records, 3 ≤ r.length) :
    ∀ m0 : GoMap, ∃ m : GoMap, parseCSVLoop records m0 = some m ∧
      ∀ k : Str, m.get? k =
        if keyOccurs records k then some (wrapInt (m0.index k + (keyCounts Atoi records k).sum))
        else m0.get? k := by
  induction records with
  | nil =>
    intro m0
    exact ⟨m0, rfl, fun k => by simp [keyOccurs]⟩
  | cons r rest ih =>
    intro m0
    have hr : 3 ≤ r.length := h3 r (List.mem_cons_self r rest)
    have hrest : ∀ r' ∈ rest, 3 ≤ r'.length := fun r' hm => h3 r' (List.mem_cons_of_mem r hm)
    have h2 : r[2]? = some (r[2]) := List.getElem?_eq_getElem (by omega)
    have h0 : r[0]? = some (r[0]) := List.getElem?_eq_getElem (by omega)
    have g2 : (r[2]?).getD [] = r[2] := by rw [h2]; rfl
    have g0 : (r[0]?).getD [] = r[0] := by rw [h0]; rfl
    obtain ⟨m, hm, hk⟩ := ih hrest
      (m0.set (recordName r[0]) (wrapInt (m0.index (recordName r[0]) + Atoi r[2])))
    refine ⟨m, ?_, ?_⟩
    · unfold parseCSVLoop
      rw [h2, h0]
      exact hm
    · intro k
      rw [hk k, keyOccurs_cons, g0]
      by_cases hname : recordName r[0] = k
      · subst hname
        have hget : GoMap.get? (m0.set (recordName r[0])
            (wrapInt (m0.index (recordName r[0]) + Atoi r[2]))) (recordName r[0])
            = some (wrapInt (m0.index (recordName r[0]) + Atoi r[2])) :=
          GoMap.get?_set_self _ _ _
        have hidx : GoMap.index (m0.set (recordName r[0])
            (wrapInt (m0.index (recordName r[0]) + Atoi r[2]))) (recordName r[0])
            = wrapInt (m0.index (recordName r[0]) + Atoi r[2]) :=
          GoMap.index_set_self _ _ _
        rw [keyCounts_cons_eq Atoi r rest _ (by rw [g0]), g2, List.sum_cons, beq_self_eq_true, Bool.true_or,
          if_pos rfl, hidx, hget]
        cases hocc : keyOccurs rest (recordName r[0]) with
        | true =>
          rw [if_pos rfl, wrapInt_add_wrapInt, add_assoc]
        | false =>
          rw [keyCounts_of_not_occurs Atoi rest _ hocc]
          simp
      · have hb : (recordName r[0] == k) = false := by simpa using hname
        have hget : GoMap.get? (m0.set (recordName r[0])
            (wrapInt (m0.index (recordName r[0]) + Atoi r[2]))) k = m0.get? k :=
          GoMap.get?_set_ne _ _ _ _ hname
        have hidx : GoMap.index (m0.set (recordName r[0])
            (wrapInt (m0.index (recordName r[0]) + Atoi r[2]))) k = m0.index k :=
          GoMap.index_set_ne _ _ _ _ hname
        rw [keyCounts_cons_ne Atoi r rest k (by rw [g0]; exact hname), hb, Bool.false_or, hidx,
          hget]

/-- Counterexample to C3: two three-column records with the same key and the counts
`9223372036854775808` and `1`.  The stated sum is 9223372036854775809; the map holds
-9223372036854775808, since `Atoi` returns 9223372036854775807 for the first count and the
addition wraps. -/
theorem parseCSV_not_spec_sum :
    (∀ r ∈ [["/latest/a/".toList, "x".toList, "9223372036854775808".toList],
            ["/latest/a/index.html".toList, "x".toList, "1".toList]], 3 ≤ r.length) ∧
    parseCSV [["/latest/a/".toList, "x".toList, "9223372036854775808".toList],
              ["/latest/a/index.html".toList, "x".toList, "1".toList]]
      = some [("a/".toList, -9223372036854775808)] ∧
    specTable [["/latest/a/".toList, "x".toList, "9223372036854775808".toList],
               ["/latest/a/index.html".toList, "x".toList, "1".toList]] "a/".toList
      = some 9223372036854775809 ∧
    Atoi "9223372036854775808".toList = 9223372036854775807 := by
  decide

/-- C3, amended. For records of at least 3 columns each, `parseCSV` returns a map (no index
is out of range) in which a key that some column 0 normalises to holds the sum, reduced to
the 64-bit range of `int`, of what `strconv.Atoi` returns for column 2 of its records, and
any other key is absent. -/
theorem parseCSV_spec (records : List (List Str)) (h3 : ∀ r ∈ records, 3 ≤ r.length) :
    ∃ m : GoMap, parseCSV records = some m ∧
      ∀ k : Str, m.get? k =
        if keyOccurs records k then some (wrapInt (keyCounts Atoi records k).sum) else none := by
  obtain ⟨m, hm, hk⟩ := parseCSVLoop_spec records h3 []
  refine ⟨m, hm, fun k => ?_⟩
  rw [hk k]
  simp [GoMap.index, GoMap.get?]

/-- Witness of C3: three records of one key, the second with an unreadable count. -/
theorem parseCSV_spec_witness :
    ∃ m : GoMap,
      parseCSV [["/latest/docs/a/".toList, "x".toList, "500".toList],
                ["/latest/docs/a/index.html".toList, "y".toList, "n/a".toList],
                ["/latest/docs/a/index.html".toList, "y".toList, "20".toList]] = some m ∧
      m.get? "docs/a/".toList = some 520 ∧ m.get? "docs/b/".toList = none := by
  obtain ⟨m, hm, hk⟩ := parseCSV_spec
    [["/latest/docs/a/".toList, "x".toList, "500".toList],
     ["/latest/docs/a/index.html".toList, "y".toList, "n/a".toList],
     ["/latest/docs/a/index.html".toList, "y".toList, "20".toList]] (by decide)
  refine ⟨m, hm, ?_, ?_⟩
  · rw [hk]
    decide
  · rw [hk]
    decide

/-- Counterexample to C10: the entry of `en/docs/a.md` is looked up under `docs/`, gets 0 hits
and the score 0, and its row has priority `P3`, not `P1` (shown with an `append` that
doubles the capacity; the theorem after this one covers every policy). -/
theorem mainReport_a_md_not_P1 :
    (mainScored (fun n => n) "../istio.io".toList walkPageA analyticsRows).map
        (List.map (fun e => (e.relative, e.score, e.notes)))
      = some [("en/docs/a.md".toList, 0,
          ["Relative path:en/docs/a.md".toList, "Hits: 0\n".toList])] ∧
    (mainReport (fun n => n) "../istio.io".toList walkPageA analyticsRows).map
        (List.map (fun row => row[3]?)) = some [some "P3".toList] ∧
    (mainReport (fun n => n) "../istio.io".toList walkPageA analyticsRows).map
        (List.map (fun row => row[3]?)) ≠ some [some "P1".toList] := by
  decide

/-- C10, amended. The row `/latest/docs/a/,x,500` gives the table `docs/a/ ↦ 500`.  The file
`en/docs/a.md` is looked up under `docs/`: 0 hits, score 0, priority `P3`, with owner `bob`,
the hyperlink built from `getURL` and the title `A`, and `yes` as test status.  The file
`en/docs/a/index.md` with the same content is looked up under `docs/a/`: 500 hits, score 10,
priority `P1`, and the same owner, title and test status. -/
theorem mainReport_end_to_end (grow : Nat → Nat) :
    (getHitsScorer analyticsRows 15).map (fun scorerInstance => scorerInstance.csv)
      = some [("docs/a/".toList, 500)] ∧
    (mainScored grow "../istio.io".toList walkPageA analyticsRows).map
        (List.map (fun e => (e.relative, e.score, e.notes)))
      = some [("en/docs/a.md".toList, 0,
          ["Relative path:en/docs/a.md".toList, "Hits: 0\n".toList])] ∧
    mainReport grow "../istio.io".toList walkPageA analyticsRows
      = some [[[], "bob".toList,
          ("=HYPERLINK(\"".toList ++ getURL "en/docs/a.md".toList ++ "\",\"A\")".toList),
          "P3".toList, "yes".toList, [], [], [], [], [], [], [], [], [],
          "Relative path:en/docs/a.md\nHits: 0\n".toList]] ∧
    (mainScored grow "../istio.io".toList walkPageAIndex analyticsRows).map
        (List.map (fun e => (e.relative, e.score, e.notes)))
      = some [("en/docs/a/index.md".toList, 10,
          ["Relative path:en/docs/a/index.md".toList, "Hits: 500\n".toList])] ∧
    mainReport grow "../istio.io".toList walkPageAIndex analyticsRows
      = some [[[], "bob".toList,
          ("=HYPERLINK(\"".toList ++ getURL "en/docs/a/index.md".toList ++ "\",\"A\")".toList),
          "P1".toList, "yes".toList, [], [], [], [], [], [], [], [], [],
          "Relative path:en/docs/a/index.md\nHits: 500\n".toList]] ∧
    getURL "en/docs/a.md".toList = "https://preliminary.istio.io/latest/docs".toList ∧
    getURL "en/docs/a/index.md".toList = "https://preliminary.istio.io/latest/docs/a".toList := by
  refine ⟨by decide, rfl, rfl, rfl, rfl, by decide, by decide⟩

end Docscore
